import Mathlib

set_option autoImplicit false

/-!
A shallow embedding of the ELF parser/loader in
xen/common/libelf/libelf-loader.c, together with proofs about it.

Modelling conventions:
* Header fields already decoded through the dual-width accessor layer
  (elf_uval and friends, which live in libelf-tools.c / libelf.h and are
  not part of the sources here) are carried as natural numbers inside the
  ElfImage record; the accessor layer is therefore spec-modelled.
* All uint64_t VALUE arithmetic of the C code is performed modulo 2^64
  (u64 / usub64 below); pointer arithmetic into the caller-owned
  destination region is idealized as exact natural-number address
  arithmetic (C pointer overflow is undefined behaviour).
* The declared e_phnum / e_shnum counts are the lengths of the phdrs and
  shdrs lists; each list element holds the values that reading that
  table entry through the accessors yields (reads that fall outside the
  image yield zero fields, which such an entry records literally).
-/

/-- The modulus of the C uint64_t values in which libelf performs its
header-field arithmetic, i.e. 2 to the 64th power. -/
def U64 : Nat := 18446744073709551616

/-- Truncation to uint64_t. -/
def u64 (x : Nat) : Nat := x % U64

/-- Wrapping uint64_t subtraction. -/
def usub64 (a b : Nat) : Nat := (a % U64 + U64 - b % U64) % U64

/-- Modelled from the spec: segment type tag marking a loadable segment
(PT_LOAD from the ELF headers, which are not part of the sources here). -/
def PT_LOAD : Nat := 1

/-- Modelled from the spec: section type tag of a symbol table
(SHT_SYMTAB from the ELF headers, not part of the sources here). -/
def SHT_SYMTAB : Nat := 2

/-- Modelled from the spec: section type tag of a string table
(SHT_STRTAB from the ELF headers, not part of the sources here). -/
def SHT_STRTAB : Nat := 3

/-- Modelled from the spec: identification byte value selecting the wide
(64-bit) header layout (ELFCLASS64, not part of the sources here). -/
def ELFCLASS64 : Nat := 2

/-- One program-header entry, as read through the dual-width accessors. -/
structure Phdr where
  p_type : Nat
  p_paddr : Nat
  p_offset : Nat
  p_filesz : Nat
  p_memsz : Nat
deriving DecidableEq

/-- One section-header entry, as read through the dual-width accessors. -/
structure Shdr where
  sh_type : Nat
  sh_link : Nat
  sh_size : Nat
  sh_offset : Nat
deriving DecidableEq

/-- The immutable input image together with the values that decoding its
headers through the (spec-modelled) accessor layer yields.  symEntries is
the decoded content of the located symbol table, with each name already
resolved through the associated string table (the decoding lives in
libelf-tools.c, which is not part of the sources here). -/
structure ElfImage where
  size : Nat
  isElf : Bool
  eClass : Nat
  eData : Nat
  phoff : Nat
  phentsize : Nat
  shoff : Nat
  shentsize : Nat
  shstrndx : Nat
  ehsize : Nat
  phdrs : List Phdr
  shdrs : List Shdr
  symEntries : List (String × Nat)
  bytes : Nat → Nat

/-- Field-width well-formedness of a decoded image: every value fits the
width of the header field it was read from (e_phentsize, e_phnum,
e_shentsize, e_shnum, e_shstrndx and e_ehsize are 16-bit fields;
sh_type and sh_link are 32-bit; offsets and sizes are at most 64-bit). -/
abbrev ElfImage.WF (img : ElfImage) : Prop :=
  img.size < U64 ∧ img.phoff < U64 ∧ img.phentsize < 65536 ∧
  img.phdrs.length < 65536 ∧ img.shoff < U64 ∧ img.shentsize < 65536 ∧
  img.shdrs.length < 65536 ∧ img.shstrndx < 65536 ∧ img.ehsize < 65536 ∧
  (∀ p ∈ img.phdrs,
    p.p_type < 4294967296 ∧ p.p_paddr < U64 ∧ p.p_offset < U64 ∧
    p.p_filesz < U64 ∧ p.p_memsz < U64) ∧
  (∀ sh ∈ img.shdrs,
    sh.sh_type < 4294967296 ∧ sh.sh_link < 4294967296 ∧
    sh.sh_size < U64 ∧ sh.sh_offset < U64)

/-- The live state of one parse/load session (struct elf_binary).  The
handle fields are section indices; an invalid handle is none.  Addresses
recorded for sec_strtab / sym_strtab are image-relative offsets, matching
elf_section_start = image base + sh_offset. -/
structure ElfState where
  img : ElfImage
  sec_strtab : Option Nat
  sym_tab : Option Nat
  sym_strtab : Option Nat
  pstart : Nat
  pend : Nat
  bsd_symtab_pstart : Nat
  bsd_symtab_pend : Nat
  dest_base : Nat

/-- Modelled from the spec: elf_is_elfbinary (libelf-tools.c, not in the
sources here) checks the magic signature and the minimal header size; the
decoded image carries its verdict as the isElf flag. -/
def elf_is_elfbinary (img : ElfImage) : Bool := img.isElf

/-- Modelled from the spec: elf_phdr_is_loadable (libelf-tools.c, not in
the sources here) tests p_type == PT_LOAD. -/
def elf_phdr_is_loadable (p : Phdr) : Bool := p.p_type == PT_LOAD

/-- Modelled from the spec: elf_section_start (libelf-tools.c, not in the
sources here) returns image base + sh_offset; image-relative here. -/
def elf_section_start (sh : Shdr) : Nat := sh.sh_offset

/-- Whether the wide (64-bit) layout was detected (libelf.h elf_64bit). -/
def elf_64bit_class (eClass : Nat) : Bool := eClass == ELFCLASS64

/-- The symbol-table scan of elf_init (libelf-loader.c lines 73-89).
The C loop sets sym_tab to entry i when its type is SHT_SYMTAB, then
resets it to the invalid handle and continues when the sh_link handle is
invalid (sh_link out of range), and breaks with sym_strtab set otherwise;
consequently the accumulator is invalid whenever the recursion proceeds,
so it is left implicit here.  The index argument i tracks the position of
the head of the remaining list inside img.shdrs. -/
def elf_find_symtab (img : ElfImage) : List Shdr → Nat → Option Nat × Option Nat
  | [], _ => (none, none)
  | sh :: rest, i =>
    if sh.sh_type = SHT_SYMTAB then
      match img.shdrs[sh.sh_link]? with
      | none => elf_find_symtab img rest (i + 1)
      | some linksh => (some i, some (elf_section_start linksh))
    else elf_find_symtab img rest (i + 1)

/-- elf_init (libelf-loader.c lines 27-92).  Returns none on failure; the
C version returns -1 before handing the caller a usable context. -/
def elf_init (img : ElfImage) : Option ElfState :=
  if ¬ elf_is_elfbinary img then none
  else
    let phEnd := u64 (img.phoff + img.phentsize * img.phdrs.length)
    if phEnd > img.size then none
    else
      let shEnd := u64 (img.shoff + img.shentsize * img.shdrs.length)
      if shEnd > img.size then none
      else
        let sec_strtab := (img.shdrs[img.shstrndx]?).map elf_section_start
        let st := elf_find_symtab img img.shdrs 0
        some ⟨img, sec_strtab, st.1, st.2, 0, 0, 0, 0, 0⟩

/-- elf_parse_binary (libelf-loader.c lines 248-274): fold the running
(low, high) pair over the program headers, skipping non-loadable ones.
low starts at (uint64_t)-1 and high at 0; paddr + memsz is uint64_t. -/
def elf_parse_binary (e : ElfState) : ElfState :=
  let lh := e.img.phdrs.foldl
    (fun (lh : Nat × Nat) (p : Phdr) =>
      if elf_phdr_is_loadable p then
        (if lh.1 > p.p_paddr then p.p_paddr else lh.1,
         if lh.2 < u64 (p.p_paddr + p.p_memsz) then u64 (p.p_paddr + p.p_memsz)
         else lh.2)
      else lh)
    (U64 - 1, 0)
  { e with pstart := lh.1, pend := lh.2 }

/-- Destination memory, byte-addressed. -/
abbrev Mem := Nat → Nat

/-- The all-zero destination memory. -/
def zeroMem : Mem := fun _ => 0

/-- Write n bytes starting at dst, byte k receiving f k. -/
def memWriteRange (m : Mem) (dst n : Nat) (f : Nat → Nat) : Mem :=
  fun a => if dst ≤ a ∧ a < dst + n then f (a - dst) else m a

/-- elf_memcpy_safe of n bytes from image offset srcoff to address dst. -/
def elf_memcpy (img : ElfImage) (m : Mem) (dst srcoff n : Nat) : Mem :=
  memWriteRange m dst n (fun k => img.bytes (srcoff + k))

/-- elf_memset_safe of n zero bytes at address dst. -/
def elf_memset0 (m : Mem) (dst n : Nat) : Mem :=
  memWriteRange m dst n (fun _ => 0)

/-- Little-endian store of the 4-byte value v at dst (elf_store_val of a
uint32_t). -/
def storeU32 (m : Mem) (dst v : Nat) : Mem :=
  memWriteRange m dst 4 (fun k => v / 256 ^ k % 256)

/-- elf_get_ptr (libelf-loader.c lines 303-306): dest_base + addr - pstart,
exact address arithmetic. -/
def elf_get_ptr (e : ElfState) (addr : Nat) : Nat :=
  e.dest_base + addr - e.pstart

/-- elf_load_image, host-tools regime (libelf-loader.c lines 117-124):
memcpy filesz bytes, memset memsz - filesz zero bytes (uint64_t
subtraction), unconditionally reporting success. -/
def elf_load_image_host (img : ElfImage) (m : Mem)
    (dst srcoff filesz memsz : Nat) : Bool × Mem :=
  (true, elf_memset0 (elf_memcpy img m dst srcoff filesz) (dst + filesz)
    (usub64 memsz filesz))

/-- Modelled from the spec: the privileged guest-memory copy/zero
collaborator primitives (raw_copy_to_guest / raw_clear_guest, supplied by
the hypervisor environment, not in the sources here).  Each returns its
success flag together with the possibly partially updated memory. -/
structure CopyPrims where
  copyToGuest : Mem → Nat → Nat → Nat → Bool × Mem
  clearGuest : Mem → Nat → Nat → Bool × Mem

/-- elf_load_image, hypervisor regime (libelf-loader.c lines 132-146):
reject filesz or memsz above ULONG_MAX (the platform word maximum, passed
here as the parameter ulmax since limits.h is not in the sources), then
copy, then clear memsz - filesz bytes, propagating primitive failure. -/
def elf_load_image_xen (ulmax : Nat) (P : CopyPrims) (m : Mem)
    (dst srcoff filesz memsz : Nat) : Bool × Mem :=
  if filesz > ulmax ∨ memsz > ulmax then (false, m)
  else
    let r := P.copyToGuest m dst srcoff filesz
    if ¬ r.1 then (false, r.2)
    else
      let r2 := P.clearGuest r.2 (dst + filesz) (usub64 memsz filesz)
      if ¬ r2.1 then (false, r2.2) else (true, r2.2)

/-- Guest-copy primitives that always succeed and write through. -/
def guestPrims (img : ElfImage) : CopyPrims :=
  ⟨fun m d s n => (true, elf_memcpy img m d s n),
   fun m d n => (true, elf_memset0 m d n)⟩

/-- elf_round_up (libelf.h, not in the sources here).  Modelled from the
spec: round v up to the format's natural alignment, 8 for the wide class
and 4 for the narrow one; the C macro computes ((v)+7) & ~7 (resp. with
3) in uint64_t, hence the truncation. -/
def elf_round_up (is64 : Bool) (v : Nat) : Nat :=
  if is64 then u64 (v + 7) / 8 * 8 else u64 (v + 3) / 4 * 4

/-- elf_parse_bsdsyms (libelf-loader.c lines 150-180): with no valid
symbol-table handle, return unchanged; otherwise round the proposed start
up, account 4 bytes for the size prefix, the primary header and the
section-header table (rounded up), then every string-table and
symbol-table section (each rounded up), and record the resulting range. -/
def elf_parse_bsdsyms (e : ElfState) (pstart : Nat) : ElfState :=
  if e.sym_tab.isNone then e
  else
    let is64 := elf_64bit_class e.img.eClass
    let p := elf_round_up is64 pstart
    let sz : Nat := 4
    let sz := u64 (sz + (e.img.ehsize + e.img.shdrs.length * e.img.shentsize))
    let sz := elf_round_up is64 sz
    let sz := e.img.shdrs.foldl
      (fun (s : Nat) (sh : Shdr) =>
        if sh.sh_type = SHT_STRTAB ∨ sh.sh_type = SHT_SYMTAB then
          elf_round_up is64 (u64 (s + sh.sh_size))
        else s) sz
    { e with bsd_symtab_pstart := p, bsd_symtab_pend := u64 (p + sz) }

/-- The embedded copy of the primary header, at the granularity at which
elf_load_bsdsyms manipulates it: the four fields it overwrites after the
byte-copy of the original header (phoff and phentsize and phnum zeroed,
shoff pointed at the immediately following copied section table). -/
structure SymEhdr where
  e_phoff : Nat
  e_shoff : Nat
  e_phentsize : Nat
  e_phnum : Nat
deriving DecidableEq

/-- Observable result of elf_load_bsdsyms: the updated destination
memory, the base and final write cursor of the embedded region, the
4-byte size value stored at the base, the overwritten fields of the
embedded primary header, and the copied section-header table with the
rewritten sh_offset fields. -/
structure BsdResult where
  mem : Mem
  symbase : Nat
  maxva : Nat
  prefixVal : Nat
  symEhdr : SymEhdr
  symShdrs : List Shdr

/-- The section loop of elf_load_bsdsyms (libelf-loader.c lines 225-240):
for every string-table or symbol-table section, copy its bytes from the
image to the cursor, rewrite the copied header's sh_offset to be relative
to symtab_addr, and round the cursor up past the copied bytes.  The
sh_offset used for the source copy is read from the copied table before
it is rewritten, which is the original image offset. -/
def elf_load_bsdsyms_loop (img : ElfImage) (is64 : Bool) (symtab_addr : Nat) :
    List Shdr → Mem → Nat → Mem × Nat × List Shdr
  | [], m, maxva => (m, maxva, [])
  | sh :: rest, m, maxva =>
    if sh.sh_type = SHT_STRTAB ∨ sh.sh_type = SHT_SYMTAB then
      let m1 := elf_memcpy img m maxva (elf_section_start sh) sh.sh_size
      let sh1 := { sh with sh_offset := maxva - symtab_addr }
      let maxva1 := elf_round_up is64 (maxva + sh.sh_size)
      let r := elf_load_bsdsyms_loop img is64 symtab_addr rest m1 maxva1
      (r.1, r.2.1, sh1 :: r.2.2)
    else
      let r := elf_load_bsdsyms_loop img is64 symtab_addr rest m maxva
      (r.1, r.2.1, sh :: r.2.2)

/-- elf_load_bsdsyms (libelf-loader.c lines 182-246).  Nothing happens
when bsd_symtab_pstart is 0.  Otherwise: symbase is the destination
address of the embedded region, symtab_addr skips the 4-byte prefix, the
primary header bytes are copied (ehsize, no round up) and its
program-header fields zeroed with e_shoff retargeted, the section-header
table is copied from image offset shoff (rounded up), every string/symbol
table section is copied by the loop, and finally the uint32 value
maxva - symtab_addr is stored at symbase. -/
def elf_load_bsdsyms (e : ElfState) (m : Mem) : BsdResult :=
  if e.bsd_symtab_pstart = 0 then ⟨m, 0, 0, 0, ⟨0, 0, 0, 0⟩, []⟩
  else
    let is64 := elf_64bit_class e.img.eClass
    let symbase := elf_get_ptr e e.bsd_symtab_pstart
    let symtab_addr := symbase + 4
    let m1 := elf_memcpy e.img m symtab_addr 0 e.img.ehsize
    let maxva1 := symtab_addr + e.img.ehsize
    let eh : SymEhdr := ⟨0, e.img.ehsize, 0, 0⟩
    let sz := e.img.shdrs.length * e.img.shentsize
    let m2 := elf_memcpy e.img m1 maxva1 e.img.shoff sz
    let maxva2 := elf_round_up is64 (maxva1 + sz)
    let r := elf_load_bsdsyms_loop e.img is64 symtab_addr e.img.shdrs m2 maxva2
    let pv := (r.2.1 - symtab_addr) % 4294967296
    ⟨storeU32 r.1 symbase pv, symbase, r.2.1, pv, eh, r.2.2⟩

/-- The segment loop of elf_load_binary (libelf-loader.c lines 283-297):
skip non-loadable entries; for a loadable one compute the destination via
elf_get_ptr and invoke the copy regime li, aborting on failure with the
memory as the failed copy left it. -/
def elf_load_segments (li : Mem → Nat → Nat → Nat → Nat → Bool × Mem)
    (e : ElfState) : List Phdr → Mem → Bool × Mem
  | [], m => (true, m)
  | p :: rest, m =>
    if elf_phdr_is_loadable p then
      let r := li m (elf_get_ptr e p.p_paddr) p.p_offset p.p_filesz p.p_memsz
      if r.1 then elf_load_segments li e rest r.2 else (false, r.2)
    else elf_load_segments li e rest m

/-- elf_load_binary (libelf-loader.c lines 276-301): copy every loadable
segment in table order, then (only when every copy succeeded) run
elf_load_bsdsyms.  The copy regime li stands for the build-selected
elf_load_image. -/
def elf_load_binary (li : Mem → Nat → Nat → Nat → Nat → Bool × Mem)
    (e : ElfState) (m : Mem) : Bool × Mem :=
  let r := elf_load_segments li e e.img.phdrs m
  if r.1 then (true, (elf_load_bsdsyms e r.2).mem) else (false, r.2)

/-- Modelled from the spec: elf_sym_by_name (libelf-tools.c, not in the
sources here) scans the symbol table, if one was located, for the first
entry whose name, resolved through the associated string table, matches
the requested name exactly. -/
def elf_sym_by_name (e : ElfState) (symbol : String) : Option (String × Nat) :=
  match e.sym_tab with
  | none => none
  | some _ => e.img.symEntries.find? (fun s => s.1 == symbol)

/-- elf_lookup_addr (libelf-loader.c lines 308-324): st_value of the
entry found by elf_sym_by_name, or (uint64_t)-1 when the handle is
invalid. -/
def elf_lookup_addr (e : ElfState) (symbol : String) : Nat :=
  match elf_sym_by_name e symbol with
  | none => U64 - 1
  | some sym => sym.2

/-! ## Helper lemmas about elf_init -/

/-- Success of elf_init is exactly the magic check plus the two wrapped
uint64 table-end bounds checks. -/
theorem elf_init_isSome_iff (img : ElfImage)
    (h : elf_is_elfbinary img = true) :
    (elf_init img).isSome ↔
      u64 (img.phoff + img.phentsize * img.phdrs.length) ≤ img.size ∧
      u64 (img.shoff + img.shentsize * img.shdrs.length) ≤ img.size := by
  unfold elf_init
  simp only [h, Bool.true_eq_false, not_true_eq_false, if_false]
  split_ifs with h1 h2 <;> simp <;> omega

/-- The context produced by a successful elf_init, field by field. -/
theorem elf_init_some (img : ElfImage) (st : ElfState)
    (h : elf_init img = some st) :
    st.img = img ∧
    st.sec_strtab = (img.shdrs[img.shstrndx]?).map elf_section_start ∧
    st.sym_tab = (elf_find_symtab img img.shdrs 0).1 ∧
    st.sym_strtab = (elf_find_symtab img img.shdrs 0).2 ∧
    st.pstart = 0 ∧ st.pend = 0 ∧ st.bsd_symtab_pstart = 0 ∧
    st.bsd_symtab_pend = 0 ∧ st.dest_base = 0 := by
  unfold elf_init at h
  dsimp only at h
  split_ifs at h
  injection h with h
  subst h
  exact ⟨rfl, rfl, rfl, rfl, rfl, rfl, rfl, rfl, rfl⟩

/-! ## Claim C1 -/

/-- A well-formed wide image whose section-header table nominally ends
past 2^64: shoff = 2^64 - 128 with 4 declared sections of 64 bytes, so
the true table end is 2^64 + 128 while the wrapped uint64 end is 128.
The section entries carry all-zero fields, which is what reading them
through the access-checked accessors yields. -/
def cex1img : ElfImage where
  size := 512
  isElf := true
  eClass := 2
  eData := 1
  phoff := 0
  phentsize := 0
  shoff := 18446744073709551488
  shentsize := 64
  shstrndx := 0
  ehsize := 64
  phdrs := []
  shdrs := [⟨0, 0, 0, 0⟩, ⟨0, 0, 0, 0⟩, ⟨0, 0, 0, 0⟩, ⟨0, 0, 0, 0⟩]
  symEntries := []
  bytes := fun _ => 0

/-- Claim C1 counterexample: the claim says elf_init fails whenever the
true section-header table end shoff + shentsize * shnum exceeds the image
size, the checking arithmetic being too wide to wrap.  On cex1img the
true end exceeds the size, the uint64 addition wraps, and elf_init
succeeds. -/
theorem elf_init_shdr_wrap_cex :
    cex1img.WF ∧
    (elf_init cex1img).isSome = true ∧
    cex1img.size < cex1img.shoff + cex1img.shentsize * cex1img.shdrs.length := by
  refine ⟨by decide, by decide, by decide⟩

/-- Claim C1 (amended): for a well-formed image, the 16-bit entry-size
and count fields make the multiplication of the table-end computation
wrap-free (it stays below 2^32), and elf_init succeeds exactly when
neither table end, computed with wrapping 64-bit addition
u64 (off + entsize * num), exceeds the image size.  The addition itself
can wrap (see the counterexample), so only the wrapped end is checked. -/
theorem elf_init_bounds_check (img : ElfImage) (hwf : img.WF)
    (helf : elf_is_elfbinary img = true) :
    (img.phentsize * img.phdrs.length < 4294967296 ∧
     img.shentsize * img.shdrs.length < 4294967296) ∧
    ((elf_init img).isSome ↔
      u64 (img.phoff + img.phentsize * img.phdrs.length) ≤ img.size ∧
      u64 (img.shoff + img.shentsize * img.shdrs.length) ≤ img.size) := by
  obtain ⟨-, -, h3, h4, -, h6, h7, -⟩ := hwf
  refine ⟨⟨?_, ?_⟩, elf_init_isSome_iff img helf⟩
  · calc img.phentsize * img.phdrs.length ≤ 65535 * 65535 :=
        Nat.mul_le_mul (by omega) (by omega)
      _ < 4294967296 := by norm_num
  · calc img.shentsize * img.shdrs.length ≤ 65535 * 65535 :=
        Nat.mul_le_mul (by omega) (by omega)
      _ < 4294967296 := by norm_num

/-- A tiny well-formed image that passes both bounds checks. -/
def w1img : ElfImage where
  size := 512
  isElf := true
  eClass := 2
  eData := 1
  phoff := 64
  phentsize := 56
  shoff := 176
  shentsize := 64
  shstrndx := 0
  ehsize := 64
  phdrs := [⟨1, 0, 0, 0, 0⟩]
  shdrs := [⟨0, 0, 0, 0⟩]
  symEntries := []
  bytes := fun _ => 0

/-- Witness for elf_init_bounds_check at the concrete image w1img. -/
theorem elf_init_bounds_check_witness :
    w1img.WF ∧ elf_is_elfbinary w1img = true ∧
    ((w1img.phentsize * w1img.phdrs.length < 4294967296 ∧
      w1img.shentsize * w1img.shdrs.length < 4294967296) ∧
     ((elf_init w1img).isSome ↔
       u64 (w1img.phoff + w1img.phentsize * w1img.phdrs.length) ≤ w1img.size ∧
       u64 (w1img.shoff + w1img.shentsize * w1img.shdrs.length) ≤ w1img.size)) :=
  ⟨by decide, by decide, elf_init_bounds_check w1img (by decide) (by decide)⟩

/-! ## Claim C4 -/

/-- Claim C4: for every image failing the magic check or one of the two
table bounds checks, elf_init returns failure (none): no context is
handed to the caller, hence no partially populated context is observable
through the functional interface. -/
theorem elf_init_fail_no_context (img : ElfImage)
    (h : elf_is_elfbinary img = false ∨
      u64 (img.phoff + img.phentsize * img.phdrs.length) > img.size ∨
      u64 (img.shoff + img.shentsize * img.shdrs.length) > img.size) :
    elf_init img = none := by
  unfold elf_init
  dsimp only
  rcases h with h | h | h
  · simp [h]
  · split_ifs <;> rfl
  · split_ifs <;> rfl

/-- An input rejected by the magic check. -/
def w4img : ElfImage where
  size := 3
  isElf := false
  eClass := 0
  eData := 0
  phoff := 0
  phentsize := 0
  shoff := 0
  shentsize := 0
  shstrndx := 0
  ehsize := 0
  phdrs := []
  shdrs := []
  symEntries := []
  bytes := fun _ => 0

/-- A well-formed image rejected by the program-header bounds check. -/
def w4bimg : ElfImage where
  size := 100
  isElf := true
  eClass := 2
  eData := 1
  phoff := 64
  phentsize := 56
  shoff := 0
  shentsize := 0
  shstrndx := 0
  ehsize := 64
  phdrs := [⟨1, 0, 0, 0, 0⟩]
  shdrs := []
  symEntries := []
  bytes := fun _ => 0

/-- Witness for elf_init_fail_no_context on a magic failure and on a
bounds failure. -/
theorem elf_init_fail_no_context_witness :
    (elf_is_elfbinary w4img = false ∧ elf_init w4img = none) ∧
    (u64 (w4bimg.phoff + w4bimg.phentsize * w4bimg.phdrs.length) > w4bimg.size ∧
     elf_init w4bimg = none) :=
  ⟨⟨by decide, elf_init_fail_no_context w4img (Or.inl (by decide))⟩,
   ⟨by decide, elf_init_fail_no_context w4bimg (Or.inr (Or.inl (by decide)))⟩⟩

/-! ## Claim C5 -/

/-- Characterization of the elf_init symbol-table scan over the suffix l
of the section table starting at index i: a recorded index is the first
symbol-table section with an in-range link (every earlier symbol-table
section has an out-of-range link and was discarded), and sym_strtab is
the linked section's start; if nothing is recorded, no symbol-table
section from position i on has an in-range link. -/
theorem elf_find_symtab_spec (img : ElfImage) :
    ∀ (l : List Shdr) (i : Nat), (∀ k, l[k]? = img.shdrs[i + k]?) →
      (∀ j, (elf_find_symtab img l i).1 = some j →
        i ≤ j ∧ ∃ sh, img.shdrs[j]? = some sh ∧ sh.sh_type = SHT_SYMTAB ∧
          sh.sh_link < img.shdrs.length ∧
          (elf_find_symtab img l i).2 =
            (img.shdrs[sh.sh_link]?).map elf_section_start ∧
          (∀ k sh2, i ≤ k → k < j → img.shdrs[k]? = some sh2 →
            sh2.sh_type = SHT_SYMTAB → img.shdrs.length ≤ sh2.sh_link)) ∧
      ((elf_find_symtab img l i).1 = none →
        ∀ k sh2, i ≤ k → img.shdrs[k]? = some sh2 →
          sh2.sh_type = SHT_SYMTAB → img.shdrs.length ≤ sh2.sh_link) := by
  intro l
  induction l with
  | nil =>
    intro i hl
    constructor
    · intro j hj; simp [elf_find_symtab] at hj
    · intro _ k sh2 hik hk _
      have h0 := hl (k - i)
      simp at h0
      rw [Nat.add_sub_cancel' hik] at h0
      rw [List.getElem?_eq_none h0] at hk
      exact absurd hk (by simp)
  | cons sh rest ih =>
    intro i hl
    have hhead : img.shdrs[i]? = some sh := by
      have := hl 0
      simpa using this.symm
    have hrest : ∀ k, rest[k]? = img.shdrs[(i + 1) + k]? := by
      intro k
      have := hl (k + 1)
      simpa [Nat.add_assoc, Nat.add_comm 1 k] using this
    by_cases ht : sh.sh_type = SHT_SYMTAB
    · cases hlink : img.shdrs[sh.sh_link]? with
      | none =>
        have hlenle : img.shdrs.length ≤ sh.sh_link := by
          by_contra hlt
          push_neg at hlt
          rw [List.getElem?_eq_getElem hlt] at hlink
          exact absurd hlink (by simp)
        have heq : elf_find_symtab img (sh :: rest) i =
            elf_find_symtab img rest (i + 1) := by
          simp [elf_find_symtab, ht, hlink]
        obtain ⟨ih1, ih2⟩ := ih (i + 1) hrest
        rw [heq]
        constructor
        · intro j hj
          obtain ⟨hij, sh1, hsh1, hty1, hlink1, hstr1, hearlier⟩ := ih1 j hj
          refine ⟨by omega, sh1, hsh1, hty1, hlink1, hstr1, ?_⟩
          intro k sh2 hik hkj hk hty2
          rcases Nat.eq_or_lt_of_le hik with rfl | hik1
          · rw [hhead] at hk
            injection hk with hk
            subst hk
            exact hlenle
          · exact hearlier k sh2 hik1 hkj hk hty2
        · intro hnone k sh2 hik hk hty2
          rcases Nat.eq_or_lt_of_le hik with rfl | hik1
          · rw [hhead] at hk
            injection hk with hk
            subst hk
            exact hlenle
          · exact ih2 hnone k sh2 hik1 hk hty2
      | some linksh =>
        have hlt : sh.sh_link < img.shdrs.length := by
          by_contra hge
          push_neg at hge
          rw [List.getElem?_eq_none hge] at hlink
          exact absurd hlink (by simp)
        have heq : elf_find_symtab img (sh :: rest) i =
            (some i, some (elf_section_start linksh)) := by
          simp [elf_find_symtab, ht, hlink]
        rw [heq]
        constructor
        · intro j hj
          simp only at hj
          injection hj with hj
          subst hj
          refine ⟨Nat.le_refl _, sh, hhead, ht, hlt, ?_, ?_⟩
          · rw [hlink]; rfl
          · intro k sh2 hik hkj
            omega
        · intro hnone
          exact absurd hnone (by simp)
    · have heq : elf_find_symtab img (sh :: rest) i =
          elf_find_symtab img rest (i + 1) := by
        simp [elf_find_symtab, ht]
      obtain ⟨ih1, ih2⟩ := ih (i + 1) hrest
      rw [heq]
      constructor
      · intro j hj
        obtain ⟨hij, sh1, hsh1, hty1, hlink1, hstr1, hearlier⟩ := ih1 j hj
        refine ⟨by omega, sh1, hsh1, hty1, hlink1, hstr1, ?_⟩
        intro k sh2 hik hkj hk hty2
        rcases Nat.eq_or_lt_of_le hik with rfl | hik1
        · rw [hhead] at hk
          injection hk with hk
          subst hk
          exact absurd hty2 ht
        · exact hearlier k sh2 hik1 hkj hk hty2
      · intro hnone k sh2 hik hk hty2
        rcases Nat.eq_or_lt_of_le hik with rfl | hik1
        · rw [hhead] at hk
          injection hk with hk
          subst hk
          exact absurd hty2 ht
        · exact ih2 hnone k sh2 hik1 hk hty2

/-- An image whose first symbol-table section (index 0) has an invalid
link (5, out of range for 3 sections) and whose second symbol-table
section (index 1) links to the valid string-table section 2. -/
def cex5img : ElfImage where
  size := 4096
  isElf := true
  eClass := 2
  eData := 1
  phoff := 0
  phentsize := 0
  shoff := 64
  shentsize := 64
  shstrndx := 2
  ehsize := 64
  phdrs := []
  shdrs := [⟨SHT_SYMTAB, 5, 24, 512⟩, ⟨SHT_SYMTAB, 2, 24, 768⟩,
            ⟨SHT_STRTAB, 0, 8, 1024⟩]
  symEntries := []
  bytes := fun _ => 0

/-- Claim C5 counterexample: the claim says that when the first
symbol-table section has an invalid link, the symbol table is discarded
and treated as absent.  On cex5img the first section is a symbol table
with link 5 (out of range), yet elf_init records section 1 (a later
symbol table with a valid link) rather than leaving the symbol table
absent, and it is also not the first symbol-table section. -/
theorem elf_init_symtab_first_invalid_cex :
    (cex5img.shdrs.head?.map Shdr.sh_type = some SHT_SYMTAB) ∧
    ((cex5img.shdrs.head?.map Shdr.sh_link).getD 0 ≥ cex5img.shdrs.length) ∧
    ((elf_init cex5img).map (fun st => st.sym_tab) = some (some 1)) :=
  ⟨by decide, by decide, by decide⟩

/-- Claim C5 (amended): the scan records the first symbol-table section
whose link is in range, together with the linked section's start as the
string table; a symbol-table section with an out-of-range link is
discarded and the scan continues with later sections, so the symbol
table ends up absent only when no symbol-table section has an in-range
link.  elf_init succeeds either way. -/
theorem elf_init_symtab_scan (img : ElfImage) (st : ElfState)
    (h : elf_init img = some st) :
    (∀ j, st.sym_tab = some j →
      ∃ sh, img.shdrs[j]? = some sh ∧ sh.sh_type = SHT_SYMTAB ∧
        sh.sh_link < img.shdrs.length ∧
        st.sym_strtab = (img.shdrs[sh.sh_link]?).map elf_section_start ∧
        (∀ k sh2, k < j → img.shdrs[k]? = some sh2 →
          sh2.sh_type = SHT_SYMTAB → img.shdrs.length ≤ sh2.sh_link)) ∧
    (st.sym_tab = none →
      ∀ (k : Nat) (sh2 : Shdr), img.shdrs[k]? = some sh2 →
        sh2.sh_type = SHT_SYMTAB → img.shdrs.length ≤ sh2.sh_link) := by
  obtain ⟨-, -, hsym, hstr, -⟩ := elf_init_some img st h
  have hl : ∀ k, img.shdrs[k]? = img.shdrs[0 + k]? := by
    intro k; rw [Nat.zero_add]
  obtain ⟨h1, h2⟩ := elf_find_symtab_spec img img.shdrs 0 hl
  constructor
  · intro j hj
    rw [hsym] at hj
    obtain ⟨-, sh, hsh, hty, hlink, hstr2, hearlier⟩ := h1 j hj
    refine ⟨sh, hsh, hty, hlink, ?_, ?_⟩
    · rw [hstr, hstr2]
    · intro k sh2 hkj hk hty2
      exact hearlier k sh2 (Nat.zero_le k) hkj hk hty2
  · intro hnone k sh2 hk hty2
    rw [hsym] at hnone
    exact h2 hnone k sh2 (Nat.zero_le k) hk hty2

/-- An image with a single symbol-table section (index 0) linking to the
valid string-table section 1. -/
def w5img : ElfImage where
  size := 4096
  isElf := true
  eClass := 2
  eData := 1
  phoff := 0
  phentsize := 0
  shoff := 64
  shentsize := 64
  shstrndx := 1
  ehsize := 64
  phdrs := []
  shdrs := [⟨SHT_SYMTAB, 1, 24, 512⟩, ⟨SHT_STRTAB, 0, 8, 1024⟩]
  symEntries := []
  bytes := fun _ => 0

/-- The context produced by elf_init on w5img. -/
def w5st : ElfState := (elf_init w5img).get (by rfl)

/-- Witness for elf_init_symtab_scan on w5img, whose symbol table is the
section at index 0 with string table at the linked index 1. -/
theorem elf_init_symtab_scan_witness :
    elf_init w5img = some w5st ∧ w5st.sym_tab = some 0 ∧
    (∃ sh, w5img.shdrs[0]? = some sh ∧ sh.sh_type = SHT_SYMTAB ∧
      sh.sh_link < w5img.shdrs.length ∧
      w5st.sym_strtab = (w5img.shdrs[sh.sh_link]?).map elf_section_start ∧
      (∀ k sh2, k < 0 → w5img.shdrs[k]? = some sh2 →
        sh2.sh_type = SHT_SYMTAB → w5img.shdrs.length ≤ sh2.sh_link)) :=
  ⟨(Option.some_get _).symm, by decide,
   (elf_init_symtab_scan w5img w5st (Option.some_get _).symm).1 0 (by decide)⟩

/-! ## Claim C7 -/

/-- Claim C7: elf_lookup_addr returns the st_value of the first
symbol-table entry whose resolved name matches the requested name
exactly, and returns the all-ones failure sentinel (uint64_t)-1 when the
symbol table is absent or no entry matches. -/
theorem elf_lookup_addr_spec (e : ElfState) (name : String) :
    ((e.sym_tab = none ∨
        e.img.symEntries.find? (fun s => s.1 == name) = none) →
      elf_lookup_addr e name = U64 - 1) ∧
    (∀ ent, e.sym_tab.isSome →
      e.img.symEntries.find? (fun s => s.1 == name) = some ent →
      elf_lookup_addr e name = ent.2) := by
  unfold elf_lookup_addr elf_sym_by_name
  cases hsym : e.sym_tab with
  | none =>
    constructor
    · intro _; rfl
    · intro ent hs _; simp at hs
  | some v =>
    constructor
    · intro h
      rcases h with h | h
      · exact absurd h (by simp)
      · rw [h]
    · intro ent _ hfind
      rw [hfind]

/-- A context whose symbol table holds foo at 0x1000 and bar at 0x2000. -/
def w7e : ElfState where
  img :=
    { size := 4096, isElf := true, eClass := 2, eData := 1, phoff := 0,
      phentsize := 0, shoff := 64, shentsize := 64, shstrndx := 1,
      ehsize := 64, phdrs := [],
      shdrs := [⟨SHT_SYMTAB, 1, 48, 512⟩, ⟨SHT_STRTAB, 0, 16, 1024⟩],
      symEntries := [("foo", 4096), ("bar", 8192)], bytes := fun _ => 0 }
  sec_strtab := none
  sym_tab := some 0
  sym_strtab := some 1024
  pstart := 0
  pend := 0
  bsd_symtab_pstart := 0
  bsd_symtab_pend := 0
  dest_base := 0

/-- Witness for elf_lookup_addr_spec: foo resolves to 0x1000, bar to
0x2000, and baz to the not-found sentinel. -/
theorem elf_lookup_addr_spec_witness :
    elf_lookup_addr w7e "foo" = 4096 ∧
    elf_lookup_addr w7e "bar" = 8192 ∧
    elf_lookup_addr w7e "baz" = U64 - 1 :=
  ⟨(elf_lookup_addr_spec w7e "foo").2 ("foo", 4096) (by decide) (by decide),
   (elf_lookup_addr_spec w7e "bar").2 ("bar", 8192) (by decide) (by decide),
   (elf_lookup_addr_spec w7e "baz").1 (Or.inr (by decide))⟩

/-! ## Claim C10 -/

/-- Claim C10: a fresh context records zero for the embedded-symbol-table
range; elf_parse_bsdsyms leaves the context unchanged when no symbol
table was located; elf_load_bsdsyms writes nothing when
bsd_symtab_pstart is 0; hence elf_load_binary on such a context produces
exactly the memory of the segment copies, with no embedded-region
write. -/
theorem elf_bsdsyms_absent_frame :
    (∀ (img : ElfImage) (st : ElfState), elf_init img = some st →
      st.bsd_symtab_pstart = 0 ∧ st.bsd_symtab_pend = 0) ∧
    (∀ (e : ElfState) (p : Nat), e.sym_tab = none →
      elf_parse_bsdsyms e p = e) ∧
    (∀ (e : ElfState) (m : Mem), e.bsd_symtab_pstart = 0 →
      (elf_load_bsdsyms e m).mem = m) ∧
    (∀ (li : Mem → Nat → Nat → Nat → Nat → Bool × Mem) (e : ElfState)
        (m : Mem), e.bsd_symtab_pstart = 0 →
      elf_load_binary li e m = elf_load_segments li e e.img.phdrs m) := by
  refine ⟨?_, ?_, ?_, ?_⟩
  · intro img st h
    have hfields := elf_init_some img st h
    exact ⟨hfields.2.2.2.2.2.2.1, hfields.2.2.2.2.2.2.2.1⟩
  · intro e p h
    unfold elf_parse_bsdsyms
    simp [h]
  · intro e m h
    unfold elf_load_bsdsyms
    simp [h]
  · intro li e m h
    unfold elf_load_binary
    dsimp only
    cases hr : elf_load_segments li e e.img.phdrs m with
    | mk ok mm =>
      cases ok with
      | true =>
        simp only [if_true]
        unfold elf_load_bsdsyms
        simp [h]
      | false => simp

/-- A context with no symbol table and the zero embedded range. -/
def w10e : ElfState where
  img := w4bimg
  sec_strtab := none
  sym_tab := none
  sym_strtab := none
  pstart := 0
  pend := 0
  bsd_symtab_pstart := 0
  bsd_symtab_pend := 0
  dest_base := 0

/-- Witness for elf_bsdsyms_absent_frame at concrete inputs. -/
theorem elf_bsdsyms_absent_frame_witness :
    (elf_init w4bimg = none ∨ elf_parse_bsdsyms w10e 7 = w10e) ∧
    (elf_load_bsdsyms w10e zeroMem).mem = zeroMem ∧
    elf_load_binary (elf_load_image_host w10e.img) w10e zeroMem =
      elf_load_segments (elf_load_image_host w10e.img) w10e
        w10e.img.phdrs zeroMem :=
  ⟨Or.inr (elf_bsdsyms_absent_frame.2.1 w10e 7 rfl),
   elf_bsdsyms_absent_frame.2.2.1 w10e zeroMem rfl,
   elf_bsdsyms_absent_frame.2.2.2 (elf_load_image_host w10e.img) w10e
     zeroMem rfl⟩

/-! ## Claim C2 -/

/-- A foldl of min is at most its initial value. -/
theorem foldl_min_le_init (l : List Nat) :
    ∀ a : Nat, l.foldl min a ≤ a := by
  induction l with
  | nil => intro a; simp
  | cons x xs ih =>
    intro a
    calc xs.foldl min (min a x) ≤ min a x := ih (min a x)
      _ ≤ a := Nat.min_le_left a x

/-- A foldl of min is at most every list element. -/
theorem foldl_min_le_mem (l : List Nat) :
    ∀ (a : Nat) (x : Nat), x ∈ l → l.foldl min a ≤ x := by
  induction l with
  | nil => intro a x hx; simp at hx
  | cons y ys ih =>
    intro a x hx
    rcases List.mem_cons.mp hx with rfl | hx
    · calc ys.foldl min (min a x) ≤ min a x := foldl_min_le_init ys (min a x)
        _ ≤ x := Nat.min_le_right a x
    · exact ih (min a y) x hx

/-- A foldl of min is the initial value or a list element. -/
theorem foldl_min_eq_or_mem (l : List Nat) :
    ∀ a : Nat, l.foldl min a = a ∨ l.foldl min a ∈ l := by
  induction l with
  | nil => intro a; simp
  | cons y ys ih =>
    intro a
    rcases ih (min a y) with h | h
    · rcases Nat.le_total a y with hay | hya
      · left
        rw [List.foldl_cons, h, Nat.min_eq_left hay]
      · right
        rw [List.foldl_cons, h, Nat.min_eq_right hya]
        exact List.mem_cons_self y ys
    · right
      exact List.mem_cons_of_mem y h

/-- A foldl of max is at least its initial value. -/
theorem foldl_max_ge_init (l : List Nat) :
    ∀ a : Nat, a ≤ l.foldl max a := by
  induction l with
  | nil => intro a; simp
  | cons x xs ih =>
    intro a
    calc a ≤ max a x := Nat.le_max_left a x
      _ ≤ xs.foldl max (max a x) := ih (max a x)

/-- A foldl of max is at least every list element. -/
theorem foldl_max_ge_mem (l : List Nat) :
    ∀ (a : Nat) (x : Nat), x ∈ l → x ≤ l.foldl max a := by
  induction l with
  | nil => intro a x hx; simp at hx
  | cons y ys ih =>
    intro a x hx
    rcases List.mem_cons.mp hx with rfl | hx
    · calc x ≤ max a x := Nat.le_max_right a x
        _ ≤ ys.foldl max (max a x) := foldl_max_ge_init ys (max a x)
    · exact ih (max a y) x hx

/-- A foldl of max is the initial value or a list element. -/
theorem foldl_max_eq_or_mem (l : List Nat) :
    ∀ a : Nat, l.foldl max a = a ∨ l.foldl max a ∈ l := by
  induction l with
  | nil => intro a; simp
  | cons y ys ih =>
    intro a
    rcases ih (max a y) with h | h
    · rcases Nat.le_total a y with hay | hya
      · right
        rw [List.foldl_cons, h, Nat.max_eq_right hay]
        exact List.mem_cons_self y ys
      · left
        rw [List.foldl_cons, h, Nat.max_eq_left hya]
    · right
      exact List.mem_cons_of_mem y h

/-- The elf_parse_binary fold computes the min-fold of the loadable
paddrs and the max-fold of the wrapped paddr + memsz sums. -/
theorem parse_fold_min_max (ps : List Phdr) :
    ∀ lo hi : Nat,
      ps.foldl
        (fun (lh : Nat × Nat) (p : Phdr) =>
          if elf_phdr_is_loadable p then
            (if lh.1 > p.p_paddr then p.p_paddr else lh.1,
             if lh.2 < u64 (p.p_paddr + p.p_memsz) then u64 (p.p_paddr + p.p_memsz)
             else lh.2)
          else lh)
        (lo, hi) =
      (((ps.filter elf_phdr_is_loadable).map Phdr.p_paddr).foldl min lo,
       ((ps.filter elf_phdr_is_loadable).map
          (fun p => u64 (p.p_paddr + p.p_memsz))).foldl max hi) := by
  induction ps with
  | nil => intro lo hi; simp
  | cons p rest ih =>
    intro lo hi
    by_cases hp : elf_phdr_is_loadable p
    · rw [List.foldl_cons, List.filter_cons_of_pos hp, List.map_cons,
        List.map_cons, List.foldl_cons, List.foldl_cons]
      have hmin : (if lo > p.p_paddr then p.p_paddr else lo) = min lo p.p_paddr := by
        rcases Nat.lt_or_ge p.p_paddr lo with h | h
        · rw [if_pos h, Nat.min_eq_right (Nat.le_of_lt h)]
        · rw [if_neg (by omega), Nat.min_eq_left h]
      have hmax : (if hi < u64 (p.p_paddr + p.p_memsz) then u64 (p.p_paddr + p.p_memsz)
          else hi) = max hi (u64 (p.p_paddr + p.p_memsz)) := by
        rcases Nat.lt_or_ge hi (u64 (p.p_paddr + p.p_memsz)) with h | h
        · rw [if_pos h, Nat.max_eq_right (Nat.le_of_lt h)]
        · rw [if_neg (by omega), Nat.max_eq_left h]
      simp only [hp, if_true, hmin, hmax]
      exact ih (min lo p.p_paddr) (max hi (u64 (p.p_paddr + p.p_memsz)))
    · rw [List.foldl_cons, List.filter_cons_of_neg hp]
      simp only [hp, if_false]
      exact ih lo hi

/-- Claim C2: elf_parse_binary sets pstart to the minimum p_paddr and
pend to the maximum 64-bit sum p_paddr + p_memsz over exactly the
loadable program-header entries (the folds below, which lie at or below
the all-ones sentinel for pstart and at or above 0 for pend, and land on
an actual entry whenever one exists); with zero loadable entries the
result is the sentinel pair (2^64 - 1, 0). -/
theorem elf_parse_binary_footprint (e : ElfState) (hwf : e.img.WF) :
    ((elf_parse_binary e).pstart =
      ((e.img.phdrs.filter elf_phdr_is_loadable).map Phdr.p_paddr).foldl
        min (U64 - 1) ∧
     (elf_parse_binary e).pend =
      ((e.img.phdrs.filter elf_phdr_is_loadable).map
        (fun p => u64 (p.p_paddr + p.p_memsz))).foldl max 0) ∧
    (e.img.phdrs.filter elf_phdr_is_loadable = [] →
      (elf_parse_binary e).pstart = U64 - 1 ∧
      (elf_parse_binary e).pend = 0) ∧
    (∀ p ∈ e.img.phdrs.filter elf_phdr_is_loadable,
      (elf_parse_binary e).pstart ≤ p.p_paddr ∧
      u64 (p.p_paddr + p.p_memsz) ≤ (elf_parse_binary e).pend) ∧
    (e.img.phdrs.filter elf_phdr_is_loadable ≠ [] →
      ((elf_parse_binary e).pstart ∈
        (e.img.phdrs.filter elf_phdr_is_loadable).map Phdr.p_paddr ∧
       (elf_parse_binary e).pend ∈
        (e.img.phdrs.filter elf_phdr_is_loadable).map
          (fun p => u64 (p.p_paddr + p.p_memsz)))) := by
  have hfold := parse_fold_min_max e.img.phdrs (U64 - 1) 0
  have hps : (elf_parse_binary e).pstart =
      ((e.img.phdrs.filter elf_phdr_is_loadable).map Phdr.p_paddr).foldl
        min (U64 - 1) := by
    show (e.img.phdrs.foldl _ (U64 - 1, 0)).1 = _
    rw [hfold]
  have hpe : (elf_parse_binary e).pend =
      ((e.img.phdrs.filter elf_phdr_is_loadable).map
        (fun p => u64 (p.p_paddr + p.p_memsz))).foldl max 0 := by
    show (e.img.phdrs.foldl _ (U64 - 1, 0)).2 = _
    rw [hfold]
  refine ⟨⟨hps, hpe⟩, ?_, ?_, ?_⟩
  · intro hnil
    rw [hps, hpe, hnil]
    exact ⟨rfl, rfl⟩
  · intro p hp
    constructor
    · rw [hps]
      exact foldl_min_le_mem _ _ _ (List.mem_map_of_mem Phdr.p_paddr hp)
    · rw [hpe]
      exact foldl_max_ge_mem _ _ _
        (List.mem_map_of_mem (fun p => u64 (p.p_paddr + p.p_memsz)) hp)
  · intro hne
    constructor
    · rw [hps]
      rcases foldl_min_eq_or_mem
        ((e.img.phdrs.filter elf_phdr_is_loadable).map Phdr.p_paddr)
        (U64 - 1) with h | h
      · obtain ⟨q, hq⟩ := List.exists_mem_of_ne_nil _ hne
        have hqmem : q.p_paddr ∈
            (e.img.phdrs.filter elf_phdr_is_loadable).map Phdr.p_paddr :=
          List.mem_map_of_mem Phdr.p_paddr hq
        have hle := foldl_min_le_mem _ (U64 - 1) _ hqmem
        have hql : q.p_paddr < U64 :=
          (hwf.2.2.2.2.2.2.2.2.2.1 q (List.mem_filter.mp hq).1).2.1
        have : q.p_paddr = U64 - 1 := by omega
        rw [h, ← this]
        exact hqmem
      · exact h
    · rw [hpe]
      rcases foldl_max_eq_or_mem
        ((e.img.phdrs.filter elf_phdr_is_loadable).map
          (fun p => u64 (p.p_paddr + p.p_memsz))) 0 with h | h
      · obtain ⟨q, hq⟩ := List.exists_mem_of_ne_nil _ hne
        have hqmem : u64 (q.p_paddr + q.p_memsz) ∈
            (e.img.phdrs.filter elf_phdr_is_loadable).map
              (fun p => u64 (p.p_paddr + p.p_memsz)) :=
          List.mem_map_of_mem (fun p => u64 (p.p_paddr + p.p_memsz)) hq
        have hge := foldl_max_ge_mem _ 0 _ hqmem
        have : u64 (q.p_paddr + q.p_memsz) = 0 := by omega
        rw [h, ← this]
        exact hqmem
      · exact h

/-- A context over an image with one loadable segment at 0x100000 of
memory size 32 and one non-loadable entry, as elf_init builds it. -/
def w2e : ElfState := (elf_init
  { size := 512, isElf := true, eClass := 2, eData := 1, phoff := 64,
    phentsize := 56, shoff := 0, shentsize := 0, shstrndx := 0,
    ehsize := 64, phdrs := [⟨1, 1048576, 64, 16, 32⟩, ⟨4, 0, 0, 0, 0⟩],
    shdrs := [], symEntries := [], bytes := fun _ => 0 }).get (by rfl)

/-- Witness for elf_parse_binary_footprint: the single loadable segment
gives pstart = 0x100000 and pend = 0x100020. -/
theorem elf_parse_binary_footprint_witness :
    w2e.img.WF ∧
    (elf_parse_binary w2e).pstart =
      ((w2e.img.phdrs.filter elf_phdr_is_loadable).map Phdr.p_paddr).foldl
        min (U64 - 1) ∧
    (elf_parse_binary w2e).pstart = 1048576 ∧
    (elf_parse_binary w2e).pend = 1048608 :=
  ⟨by decide, (elf_parse_binary_footprint w2e (by decide)).1.1,
   by decide, by decide⟩

/-! ## Claim C8 -/

/-- Claim C8 counterexample: the claim says both copy regimes reject
filesz or memsz values that would overflow the copy and zero-fill
address arithmetic, including the zero-fill length memsz - filesz,
before any byte is written.  With filesz = 10 and memsz = 5 the
zero-fill length wraps to 2^64 - 5, yet the host regime reports success
unconditionally and the hypervisor regime passes its only pre-check
(the ULONG_MAX comparisons) and also reports success. -/
theorem elf_load_image_wrap_cex :
    usub64 5 10 = U64 - 5 ∧
    (elf_load_image_host w1img zeroMem 0 0 10 5).1 = true ∧
    (elf_load_image_xen (U64 - 1) (guestPrims w1img) zeroMem 0 0 10 5).1
      = true :=
  ⟨by decide, rfl, by decide⟩

/-- Claim C8 (amended): the hypervisor regime rejects filesz or memsz
values exceeding the platform word maximum ULONG_MAX before any byte is
written (the memory is returned untouched); the host-tools regime
performs no pre-check at all and always reports success; and neither
regime validates memsz against filesz, the zero-fill length being the
wrapping 64-bit subtraction, which equals 2^64 - (filesz - memsz) when
memsz < filesz. -/
theorem elf_load_image_checks :
    (∀ (ulmax : Nat) (P : CopyPrims) (m : Mem) (dst srcoff filesz memsz : Nat),
      filesz > ulmax ∨ memsz > ulmax →
      elf_load_image_xen ulmax P m dst srcoff filesz memsz = (false, m)) ∧
    (∀ (img : ElfImage) (m : Mem) (dst srcoff filesz memsz : Nat),
      (elf_load_image_host img m dst srcoff filesz memsz).1 = true) ∧
    (∀ filesz memsz : Nat, memsz < filesz → filesz < U64 →
      usub64 memsz filesz = U64 - (filesz - memsz)) := by
  refine ⟨?_, ?_, ?_⟩
  · intro ulmax P m dst srcoff filesz memsz h
    unfold elf_load_image_xen
    rw [if_pos h]
  · intro img m dst srcoff filesz memsz
    rfl
  · intro filesz memsz h1 h2
    have h2x : filesz < 18446744073709551616 := h2
    simp only [usub64, U64]
    omega

/-- Witness for elf_load_image_checks: a filesz above a 32-bit ULONG_MAX
is rejected with untouched memory, and the wrapping zero-fill length at
memsz = 5, filesz = 10. -/
theorem elf_load_image_checks_witness :
    ((9223372036854775808:Nat) > 4294967295 ∨ (0:Nat) > 4294967295) ∧
    elf_load_image_xen 4294967295 (guestPrims w1img) zeroMem 0 0
      9223372036854775808 0 = (false, zeroMem) ∧
    ((5:Nat) < 10 ∧ usub64 5 10 = U64 - (10 - 5)) :=
  ⟨Or.inl (by decide),
   elf_load_image_checks.1 4294967295 (guestPrims w1img) zeroMem 0 0
     9223372036854775808 0 (Or.inl (by decide)),
   ⟨by decide, elf_load_image_checks.2.2 10 5 (by decide) (by decide)⟩⟩

/-! ## Claim C9 -/

/-- Splitting the segment loop at a list append: the second half runs
only if the first half succeeded, from the memory it produced. -/
theorem elf_load_segments_append
    (li : Mem → Nat → Nat → Nat → Nat → Bool × Mem) (e : ElfState) :
    ∀ (l1 l2 : List Phdr) (m : Mem),
      elf_load_segments li e (l1 ++ l2) m =
        (if (elf_load_segments li e l1 m).1
         then elf_load_segments li e l2 (elf_load_segments li e l1 m).2
         else elf_load_segments li e l1 m) := by
  intro l1
  induction l1 with
  | nil => intro l2 m; simp [elf_load_segments]
  | cons p rest ih =>
    intro l2 m
    by_cases hp : elf_phdr_is_loadable p
    · simp only [List.cons_append, elf_load_segments, hp, if_true]
      cases hb : (li m (elf_get_ptr e p.p_paddr) p.p_offset p.p_filesz
          p.p_memsz).1
      · simp [hb]
      · simp [hb, ih]
    · simp only [List.cons_append, elf_load_segments, hp, if_false]
      exact ih l2 m

/-- Claim C9: if the copy of some loadable segment fails, elf_load_binary
returns failure with exactly the memory the failed copy left (segments
after the failing one are never consulted, the embedder never runs, and
earlier segments' writes are not rolled back); when every segment copy
succeeds, the result is success and the embedder runs on the memory all
the segment copies produced. -/
theorem elf_load_binary_abort :
    (∀ (li : Mem → Nat → Nat → Nat → Nat → Bool × Mem) (e : ElfState)
        (m m1 m2 : Mem) (ps1 ps2 : List Phdr) (p : Phdr),
      e.img.phdrs = ps1 ++ p :: ps2 →
      elf_phdr_is_loadable p = true →
      elf_load_segments li e ps1 m = (true, m1) →
      li m1 (elf_get_ptr e p.p_paddr) p.p_offset p.p_filesz p.p_memsz
        = (false, m2) →
      elf_load_binary li e m = (false, m2)) ∧
    (∀ (li : Mem → Nat → Nat → Nat → Nat → Bool × Mem) (e : ElfState)
        (m mfin : Mem),
      elf_load_segments li e e.img.phdrs m = (true, mfin) →
      elf_load_binary li e m = (true, (elf_load_bsdsyms e mfin).mem)) := by
  constructor
  · intro li e m m1 m2 ps1 ps2 p hsplit hload hok hfail
    unfold elf_load_binary
    dsimp only
    rw [hsplit, elf_load_segments_append li e ps1 (p :: ps2) m, hok]
    simp only [if_true]
    rw [elf_load_segments, if_pos hload, hfail]
    simp
  · intro li e m mfin hseg
    unfold elf_load_binary
    dsimp only
    rw [hseg]
    simp

/-- Witness for elf_load_binary_abort: a copy regime that always fails
makes the load of the single loadable segment of w10e.img fail with the
memory untouched. -/
theorem elf_load_binary_abort_witness :
    w10e.img.phdrs = [] ++ (⟨1, 0, 0, 0, 0⟩ : Phdr) :: [] ∧
    elf_phdr_is_loadable ⟨1, 0, 0, 0, 0⟩ = true ∧
    elf_load_binary (fun m _ _ _ _ => (false, m)) w10e zeroMem
      = (false, zeroMem) :=
  ⟨rfl, by decide,
   elf_load_binary_abort.1 (fun m _ _ _ _ => (false, m)) w10e zeroMem
     zeroMem zeroMem [] [] ⟨1, 0, 0, 0, 0⟩ rfl (by decide) rfl rfl⟩

/-! ## Claim C3 -/

/-- With no loadable entry the segment loop is the identity. -/
theorem elf_load_segments_nofilter
    (li : Mem → Nat → Nat → Nat → Nat → Bool × Mem) (e : ElfState) :
    ∀ (l : List Phdr) (m : Mem), l.filter elf_phdr_is_loadable = [] →
      elf_load_segments li e l m = (true, m) := by
  intro l
  induction l with
  | nil => intro m _; rfl
  | cons p rest ih =>
    intro m hf
    rw [List.filter_cons] at hf
    by_cases hp : elf_phdr_is_loadable p
    · rw [if_pos hp] at hf
      exact absurd hf (List.cons_ne_nil _ _)
    · rw [if_neg hp] at hf
      simp only [elf_load_segments, hp, if_false]
      exact ih m hf
/-- With exactly one loadable entry p, the segment loop over the host
copy regime copies p's filesz bytes from image offset p_offset to the
destination elf_get_ptr e p_paddr and zero-fills the wrapped
memsz - filesz bytes after them. -/
theorem elf_load_segments_single (img : ElfImage) (e : ElfState) (p : Phdr) :
    ∀ (l : List Phdr) (m : Mem), l.filter elf_phdr_is_loadable = [p] →
      elf_load_segments (elf_load_image_host img) e l m =
        (true,
         elf_memset0
           (elf_memcpy img m (elf_get_ptr e p.p_paddr) p.p_offset p.p_filesz)
           (elf_get_ptr e p.p_paddr + p.p_filesz)
           (usub64 p.p_memsz p.p_filesz)) := by
  intro l
  induction l with
  | nil => intro m hf; exact absurd hf (by simp)
  | cons q rest ih =>
    intro m hf
    rw [List.filter_cons] at hf
    by_cases hq : elf_phdr_is_loadable q
    · rw [if_pos hq] at hf
      injection hf with h1 h2
      subst h1
      simp only [elf_load_segments, hq, if_true, elf_load_image_host]
      exact elf_load_segments_nofilter (elf_load_image_host img) e rest _ h2
    · rw [if_neg hq] at hf
      simp only [elf_load_segments, hq, if_false]
      exact ih m hf

/-- Claim C3: for a context whose program-header table has exactly one
loadable entry p with filesz F at most memsz M below 2^64, loading into
the all-zero destination places the segment at
dest_base + (paddr - pstart), makes the first F destination bytes equal
to the image bytes at p_offset, and the following M - F bytes zero.
Width and byte order do not appear: the fields are already decoded. -/
theorem elf_load_binary_segment_roundtrip (e : ElfState) (p : Phdr)
    (hfilter : e.img.phdrs.filter elf_phdr_is_loadable = [p])
    (hMF : p.p_filesz ≤ p.p_memsz) (hM : p.p_memsz < U64)
    (hps : e.pstart ≤ p.p_paddr)
    (hbsd : e.bsd_symtab_pstart = 0) :
    (elf_load_binary (elf_load_image_host e.img) e zeroMem).1 = true ∧
    elf_get_ptr e p.p_paddr = e.dest_base + (p.p_paddr - e.pstart) ∧
    (∀ k, k < p.p_filesz →
      (elf_load_binary (elf_load_image_host e.img) e zeroMem).2
        (e.dest_base + (p.p_paddr - e.pstart) + k)
        = e.img.bytes (p.p_offset + k)) ∧
    (∀ k, p.p_filesz ≤ k → k < p.p_memsz →
      (elf_load_binary (elf_load_image_host e.img) e zeroMem).2
        (e.dest_base + (p.p_paddr - e.pstart) + k) = 0) := by
  have hdest : elf_get_ptr e p.p_paddr
      = e.dest_base + (p.p_paddr - e.pstart) := by
    unfold elf_get_ptr
    omega
  have hsub : usub64 p.p_memsz p.p_filesz = p.p_memsz - p.p_filesz := by
    have hMx : p.p_memsz < 18446744073709551616 := hM
    simp only [usub64, U64]
    omega
  have hseg := elf_load_segments_single e.img e p e.img.phdrs zeroMem hfilter
  have hbin : elf_load_binary (elf_load_image_host e.img) e zeroMem =
      (true, elf_memset0 (elf_memcpy e.img zeroMem (elf_get_ptr e p.p_paddr)
        p.p_offset p.p_filesz) (elf_get_ptr e p.p_paddr + p.p_filesz)
        (usub64 p.p_memsz p.p_filesz)) := by
    unfold elf_load_binary
    dsimp only
    rw [hseg]
    simp only [if_true]
    unfold elf_load_bsdsyms
    simp [hbsd]
  refine ⟨by rw [hbin], hdest, ?_, ?_⟩
  · intro k hk
    rw [hbin, ← hdest]
    simp only [elf_memset0, elf_memcpy, memWriteRange]
    rw [if_neg (by omega)]
    rw [if_pos (by constructor <;> omega)]
    congr 1
    omega
  · intro k hk1 hk2
    rw [hbin, ← hdest]
    simp only [elf_memset0, elf_memcpy, memWriteRange, hsub]
    rw [if_pos (by constructor <;> omega)]

/-- The loadable segment used by the round-trip witness: paddr 0x100000,
file bytes 1..16 at image offset 0x40, filesz 16, memsz 32. -/
def w3p : Phdr := ⟨1, 1048576, 64, 16, 32⟩

/-- A context for the round-trip witness, loading at dest_base = pstart
= 0x100000 with no embedded symbol table. -/
def w3e : ElfState where
  img :=
    { size := 512, isElf := true, eClass := 2, eData := 1, phoff := 64,
      phentsize := 56, shoff := 0, shentsize := 0, shstrndx := 0,
      ehsize := 64, phdrs := [w3p], shdrs := [], symEntries := [],
      bytes := fun a => if 64 ≤ a ∧ a < 80 then a - 63 else 0 }
  sec_strtab := none
  sym_tab := none
  sym_strtab := none
  pstart := 1048576
  pend := 1048608
  bsd_symtab_pstart := 0
  bsd_symtab_pend := 0
  dest_base := 1048576

/-- Witness for elf_load_binary_segment_roundtrip on w3e. -/
theorem elf_load_binary_segment_roundtrip_witness :
    (w3e.img.phdrs.filter elf_phdr_is_loadable = [w3p] ∧
     w3p.p_filesz ≤ w3p.p_memsz ∧ w3p.p_memsz < U64 ∧
     w3e.pstart ≤ w3p.p_paddr ∧ w3e.bsd_symtab_pstart = 0) ∧
    ((elf_load_binary (elf_load_image_host w3e.img) w3e zeroMem).1 = true ∧
     elf_get_ptr w3e w3p.p_paddr
       = w3e.dest_base + (w3p.p_paddr - w3e.pstart) ∧
     (∀ k, k < w3p.p_filesz →
       (elf_load_binary (elf_load_image_host w3e.img) w3e zeroMem).2
         (w3e.dest_base + (w3p.p_paddr - w3e.pstart) + k)
         = w3e.img.bytes (w3p.p_offset + k)) ∧
     (∀ k, w3p.p_filesz ≤ k → k < w3p.p_memsz →
       (elf_load_binary (elf_load_image_host w3e.img) w3e zeroMem).2
         (w3e.dest_base + (w3p.p_paddr - w3e.pstart) + k) = 0)) :=
  ⟨⟨by decide, by decide, by decide, by decide, rfl⟩,
   elf_load_binary_segment_roundtrip w3e w3p (by decide) (by decide)
     (by decide) (by decide) rfl⟩

/-! ## Claim C6 -/

/-- elf_round_up without the wrap, below the modulus. -/
theorem elf_round_up_eq (is64 : Bool) (v : Nat) (h : v + 7 < U64) :
    elf_round_up is64 v =
      if is64 then (v + 7) / 8 * 8 else (v + 3) / 4 * 4 := by
  have hx : v + 7 < 18446744073709551616 := h
  cases is64 <;>
    simp only [elf_round_up, u64, U64, if_true, if_false, Bool.false_eq_true] <;>
    rw [Nat.mod_eq_of_lt (by omega)]

/-- Rounding up does not decrease (below the modulus). -/
theorem elf_round_up_ge (is64 : Bool) (v : Nat) (h : v + 7 < U64) :
    v ≤ elf_round_up is64 v := by
  rw [elf_round_up_eq is64 v h]
  cases is64 <;> simp only [if_true, if_false, Bool.false_eq_true] <;> omega

/-- Rounding up adds at most 7 (below the modulus). -/
theorem elf_round_up_le (is64 : Bool) (v : Nat) (h : v + 7 < U64) :
    elf_round_up is64 v ≤ v + 7 := by
  rw [elf_round_up_eq is64 v h]
  cases is64 <;> simp only [if_true, if_false, Bool.false_eq_true] <;> omega

/-- Rounding up past an already-aligned summand. -/
theorem elf_round_up_add_left (is64 : Bool) (s v : Nat)
    (hdvd : (if is64 then 8 else 4) ∣ s) (h : s + v + 7 < U64) :
    elf_round_up is64 (s + v) = s + elf_round_up is64 v := by
  rw [elf_round_up_eq is64 (s + v) h, elf_round_up_eq is64 v (by omega)]
  cases is64 <;> simp only [if_true, if_false, Bool.false_eq_true] <;>
    simp only [if_true, if_false, Bool.false_eq_true] at hdvd <;>
    obtain ⟨c, rfl⟩ := hdvd <;> omega

/-- Over-approximating bound on the sizing fold: each string/symbol
section contributes its size plus the maximal alignment padding. -/
def bsdBoundFold (l : List Shdr) (a : Nat) : Nat :=
  l.foldl (fun (a : Nat) (sh : Shdr) =>
    if sh.sh_type = SHT_STRTAB ∨ sh.sh_type = SHT_SYMTAB then
      a + sh.sh_size + 7
    else a) a

/-- The bound fold dominates its initial value. -/
theorem le_bsdBoundFold (l : List Shdr) : ∀ a : Nat, a ≤ bsdBoundFold l a := by
  induction l with
  | nil => intro a; simp [bsdBoundFold]
  | cons sh rest ih =>
    intro a
    by_cases ht : sh.sh_type = SHT_STRTAB ∨ sh.sh_type = SHT_SYMTAB
    · have : bsdBoundFold (sh :: rest) a = bsdBoundFold rest (a + sh.sh_size + 7) := by
        simp [bsdBoundFold, ht]
      rw [this]
      have := ih (a + sh.sh_size + 7)
      omega
    · have : bsdBoundFold (sh :: rest) a = bsdBoundFold rest a := by
        simp [bsdBoundFold, ht]
      rw [this]
      exact ih a

/-- The bound fold is monotone in its initial value. -/
theorem bsdBoundFold_mono (l : List Shdr) :
    ∀ a b : Nat, a ≤ b → bsdBoundFold l a ≤ bsdBoundFold l b := by
  induction l with
  | nil => intro a b h; simpa [bsdBoundFold] using h
  | cons sh rest ih =>
    intro a b h
    by_cases ht : sh.sh_type = SHT_STRTAB ∨ sh.sh_type = SHT_SYMTAB
    · have ha : bsdBoundFold (sh :: rest) a = bsdBoundFold rest (a + sh.sh_size + 7) := by
        simp [bsdBoundFold, ht]
      have hb : bsdBoundFold (sh :: rest) b = bsdBoundFold rest (b + sh.sh_size + 7) := by
        simp [bsdBoundFold, ht]
      rw [ha, hb]
      exact ih _ _ (by omega)
    · have ha : bsdBoundFold (sh :: rest) a = bsdBoundFold rest a := by
        simp [bsdBoundFold, ht]
      have hb : bsdBoundFold (sh :: rest) b = bsdBoundFold rest b := by
        simp [bsdBoundFold, ht]
      rw [ha, hb]
      exact ih _ _ h

/-- The section fold of the sizing pass of elf_parse_bsdsyms. -/
def bsdSizeFold (is64 : Bool) (l : List Shdr) (s : Nat) : Nat :=
  l.foldl (fun (s : Nat) (sh : Shdr) =>
    if sh.sh_type = SHT_STRTAB ∨ sh.sh_type = SHT_SYMTAB then
      elf_round_up is64 (u64 (s + sh.sh_size))
    else s) s

/-- The embedded-section loop advances the write cursor from B + s to
B + (sizing fold of s) when the base B is aligned and the bound fold
stays below the modulus: the materialization cursor tracks the sizing
arithmetic exactly. -/
theorem bsd_loop_maxva (img : ElfImage) (is64 : Bool) (symtab_addr B : Nat)
    (hB : (if is64 then 8 else 4) ∣ B) :
    ∀ (l : List Shdr) (m : Mem) (s : Nat),
      B + bsdBoundFold l s < U64 →
      (elf_load_bsdsyms_loop img is64 symtab_addr l m (B + s)).2.1 =
        B + bsdSizeFold is64 l s := by
  intro l
  induction l with
  | nil =>
    intro m s _
    simp [elf_load_bsdsyms_loop, bsdSizeFold]
  | cons sh rest ih =>
    intro m s hb
    by_cases ht : sh.sh_type = SHT_STRTAB ∨ sh.sh_type = SHT_SYMTAB
    · have hbf : bsdBoundFold (sh :: rest) s
          = bsdBoundFold rest (s + sh.sh_size + 7) := by
        simp [bsdBoundFold, ht]
      have hle := le_bsdBoundFold rest (s + sh.sh_size + 7)
      have hsmall : B + (s + sh.sh_size) + 7 < U64 := by
        rw [hbf] at hb
        omega
      simp only [elf_load_bsdsyms_loop, ht, if_true]
      have harg : B + s + sh.sh_size = B + (s + sh.sh_size) := by omega
      rw [harg, elf_round_up_add_left is64 B (s + sh.sh_size) hB hsmall]
      have hsle : elf_round_up is64 (s + sh.sh_size) ≤ s + sh.sh_size + 7 :=
        elf_round_up_le is64 _ (by omega)
      have hbnew : B + bsdBoundFold rest (elf_round_up is64 (s + sh.sh_size))
          < U64 := by
        have := bsdBoundFold_mono rest _ _ hsle
        rw [hbf] at hb
        omega
      rw [ih _ _ hbnew]
      have hcons : bsdSizeFold is64 (sh :: rest) s =
          bsdSizeFold is64 rest (elf_round_up is64 (u64 (s + sh.sh_size))) := by
        simp [bsdSizeFold, ht]
      rw [hcons]
      have hu : u64 (s + sh.sh_size) = s + sh.sh_size := by
        unfold u64 U64
        have hx : B + (s + sh.sh_size) + 7 < 18446744073709551616 := hsmall
        omega
      rw [hu]
    · simp only [elf_load_bsdsyms_loop, ht, if_false]
      have hbf : bsdBoundFold (sh :: rest) s = bsdBoundFold rest s := by
        simp [bsdBoundFold, ht]
      have hcons : bsdSizeFold is64 (sh :: rest) s = bsdSizeFold is64 rest s := by
        simp [bsdSizeFold, ht]
      rw [hcons]
      exact ih m s (by rw [hbf] at hb; exact hb)

/-- The fields elf_parse_bsdsyms computes when a symbol table was
located, expressed through the sizing fold. -/
theorem elf_parse_bsdsyms_fields (e : ElfState) (p : Nat)
    (hsym : e.sym_tab.isSome = true) :
    (elf_parse_bsdsyms e p).bsd_symtab_pstart =
      elf_round_up (elf_64bit_class e.img.eClass) p ∧
    (elf_parse_bsdsyms e p).bsd_symtab_pend =
      u64 (elf_round_up (elf_64bit_class e.img.eClass) p +
        bsdSizeFold (elf_64bit_class e.img.eClass) e.img.shdrs
          (elf_round_up (elf_64bit_class e.img.eClass)
            (u64 (4 + (e.img.ehsize + e.img.shdrs.length * e.img.shentsize))))) ∧
    (elf_parse_bsdsyms e p).dest_base = e.dest_base ∧
    (elf_parse_bsdsyms e p).pstart = e.pstart ∧
    (elf_parse_bsdsyms e p).img = e.img ∧
    (elf_parse_bsdsyms e p).sym_tab = e.sym_tab := by
  have hnone : e.sym_tab.isNone = false := by
    cases h : e.sym_tab
    · rw [h] at hsym
      simp at hsym
    · rfl
  unfold elf_parse_bsdsyms
  rw [hnone]
  simp [bsdSizeFold]

/-- Claim C6 (amended): for an image with a located symbol table, with
the embedded base aligned and all the arithmetic below the moduli, the
extent written by the materialization phase (final cursor maxva minus
the region base) equals the size computed by the sizing phase
(bsd_symtab_pend - bsd_symtab_pstart), while the 4-byte prefix stored at
the region base holds that size MINUS the 4 bytes of the prefix itself
(the code stores maxva - symtab_addr, and symtab_addr = symbase + 4),
not the exact size. -/
theorem elf_bsdsyms_size_agreement (e : ElfState) (p : Nat) (m : Mem)
    (is64 : Bool) (B sz0 szTotal p1 : Nat)
    (his : is64 = elf_64bit_class e.img.eClass)
    (hsym : e.sym_tab.isSome = true)
    (hp1 : p1 = elf_round_up is64 p)
    (hp1ne : p1 ≠ 0)
    (hB : B = e.dest_base + p1 - e.pstart)
    (hBd : (if is64 then 8 else 4) ∣ B)
    (hsz0 : sz0 = elf_round_up is64
      (u64 (4 + (e.img.ehsize + e.img.shdrs.length * e.img.shentsize))))
    (hszT : szTotal = bsdSizeFold is64 e.img.shdrs sz0)
    (hb1 : 4 + (e.img.ehsize + e.img.shdrs.length * e.img.shentsize) + 7 < U64)
    (hb2 : B + bsdBoundFold e.img.shdrs sz0 + 7 < U64)
    (hwrap : p1 + szTotal < U64)
    (h4 : 4 ≤ szTotal) (h32 : szTotal - 4 < 4294967296) :
    (elf_parse_bsdsyms e p).bsd_symtab_pend
      - (elf_parse_bsdsyms e p).bsd_symtab_pstart = szTotal ∧
    (elf_load_bsdsyms (elf_parse_bsdsyms e p) m).maxva
      - (elf_load_bsdsyms (elf_parse_bsdsyms e p) m).symbase = szTotal ∧
    (elf_load_bsdsyms (elf_parse_bsdsyms e p) m).prefixVal = szTotal - 4 ∧
    (elf_load_bsdsyms (elf_parse_bsdsyms e p) m).prefixVal + 4 =
      (elf_parse_bsdsyms e p).bsd_symtab_pend
        - (elf_parse_bsdsyms e p).bsd_symtab_pstart := by
  obtain ⟨hf1, hf2, hf3, hf4, hf5, -⟩ := elf_parse_bsdsyms_fields e p hsym
  rw [← his] at hf1 hf2
  rw [← hsz0] at hf2
  rw [← hp1] at hf1 hf2
  rw [← hszT] at hf2
  have hU : (18446744073709551616:Nat) = U64 := rfl
  have hpend : (elf_parse_bsdsyms e p).bsd_symtab_pend = p1 + szTotal := by
    rw [hf2]
    unfold u64 U64
    rw [hU] at *
    exact Nat.mod_eq_of_lt hwrap
  have part1 : (elf_parse_bsdsyms e p).bsd_symtab_pend
      - (elf_parse_bsdsyms e p).bsd_symtab_pstart = szTotal := by
    rw [hpend, hf1]
    omega
  have hne : (elf_parse_bsdsyms e p).bsd_symtab_pstart ≠ 0 := by
    rw [hf1]
    exact hp1ne
  have hgp : elf_get_ptr (elf_parse_bsdsyms e p)
      ((elf_parse_bsdsyms e p).bsd_symtab_pstart) = B := by
    unfold elf_get_ptr
    rw [hf1, hf3, hf4]
    omega
  have hx : 4 + (e.img.ehsize + e.img.shdrs.length * e.img.shentsize) ≤ sz0 := by
    have hu : u64 (4 + (e.img.ehsize + e.img.shdrs.length * e.img.shentsize))
        = 4 + (e.img.ehsize + e.img.shdrs.length * e.img.shentsize) := by
      unfold u64
      exact Nat.mod_eq_of_lt (by omega)
    rw [hsz0, hu]
    exact elf_round_up_ge is64 _ hb1
  have hs0b : sz0 ≤ bsdBoundFold e.img.shdrs sz0 := le_bsdBoundFold _ _
  have hbx : B + (4 + (e.img.ehsize + e.img.shdrs.length * e.img.shentsize))
      + 7 < U64 := by omega
  have hu2 : u64 (4 + (e.img.ehsize + e.img.shdrs.length * e.img.shentsize))
      = 4 + (e.img.ehsize + e.img.shdrs.length * e.img.shentsize) := by
    unfold u64
    exact Nat.mod_eq_of_lt (by omega)
  have hmain : (elf_load_bsdsyms (elf_parse_bsdsyms e p) m).symbase = B ∧
      (elf_load_bsdsyms (elf_parse_bsdsyms e p) m).maxva = B + szTotal ∧
      (elf_load_bsdsyms (elf_parse_bsdsyms e p) m).prefixVal
        = (B + szTotal - (B + 4)) % 4294967296 := by
    unfold elf_load_bsdsyms
    rw [if_neg hne]
    dsimp only
    rw [hf5, hgp, ← his]
    have harg : B + 4 + e.img.ehsize + e.img.shdrs.length * e.img.shentsize
        = B + (4 + (e.img.ehsize + e.img.shdrs.length * e.img.shentsize)) := by
      omega
    rw [harg, elf_round_up_add_left is64 B _ hBd hbx, ← hu2, ← hsz0]
    rw [bsd_loop_maxva e.img is64 (B + 4) B hBd e.img.shdrs _ sz0 (by omega)]
    rw [← hszT]
    exact ⟨rfl, rfl, rfl⟩
  refine ⟨part1, ?_, ?_, ?_⟩
  · rw [hmain.2.1, hmain.1]
    omega
  · rw [hmain.2.2]
    have hv : B + szTotal - (B + 4) = szTotal - 4 := by omega
    rw [hv]
    exact Nat.mod_eq_of_lt h32
  · rw [hmain.2.2, part1]
    omega

/-- A wide image with one symbol-table section (24 bytes, link 1) and
one string-table section (8 bytes): sizing gives
roundup(4 + 64 + 2*64) = 200, then 224, then 232 bytes in total. -/
def cex6img : ElfImage where
  size := 2048
  isElf := true
  eClass := 2
  eData := 1
  phoff := 0
  phentsize := 0
  shoff := 64
  shentsize := 64
  shstrndx := 1
  ehsize := 64
  phdrs := []
  shdrs := [⟨SHT_SYMTAB, 1, 24, 512⟩, ⟨SHT_STRTAB, 0, 8, 768⟩]
  symEntries := []
  bytes := fun _ => 0

/-- The context for the embedder scenario: initialized from cex6img,
loading at dest_base = pstart = 4096. -/
def cex6e : ElfState :=
  { (elf_init cex6img).get (by rfl) with pstart := 4096, dest_base := 4096 }

/-- Claim C6 counterexample: the claim says the 4-byte prefix written at
the start of the embedded region equals the exact size computed by the
sizing phase.  On cex6e the sizing phase computes 232 bytes
(bsd_symtab_pend - bsd_symtab_pstart), but the materialization phase
stores 228 = 232 - 4 in the prefix (maxva - symtab_addr excludes the
prefix itself). -/
theorem elf_bsdsyms_prefix_cex :
    cex6e.sym_tab = some 0 ∧
    (elf_parse_bsdsyms cex6e 8192).bsd_symtab_pend
      - (elf_parse_bsdsyms cex6e 8192).bsd_symtab_pstart = 232 ∧
    (elf_load_bsdsyms (elf_parse_bsdsyms cex6e 8192) zeroMem).prefixVal
      = 228 ∧
    (elf_load_bsdsyms (elf_parse_bsdsyms cex6e 8192) zeroMem).prefixVal ≠
      (elf_parse_bsdsyms cex6e 8192).bsd_symtab_pend
        - (elf_parse_bsdsyms cex6e 8192).bsd_symtab_pstart :=
  ⟨by decide, by decide, by decide, by decide⟩

/-- Witness for elf_bsdsyms_size_agreement on cex6e: sized 232 bytes,
written extent 232 bytes, prefix 228 = 232 - 4. -/
theorem elf_bsdsyms_size_agreement_witness :
    cex6e.sym_tab.isSome = true ∧
    ((elf_parse_bsdsyms cex6e 8192).bsd_symtab_pend
       - (elf_parse_bsdsyms cex6e 8192).bsd_symtab_pstart = 232 ∧
     (elf_load_bsdsyms (elf_parse_bsdsyms cex6e 8192) zeroMem).maxva
       - (elf_load_bsdsyms (elf_parse_bsdsyms cex6e 8192) zeroMem).symbase
       = 232 ∧
     (elf_load_bsdsyms (elf_parse_bsdsyms cex6e 8192) zeroMem).prefixVal
       = 232 - 4 ∧
     (elf_load_bsdsyms (elf_parse_bsdsyms cex6e 8192) zeroMem).prefixVal + 4 =
       (elf_parse_bsdsyms cex6e 8192).bsd_symtab_pend
         - (elf_parse_bsdsyms cex6e 8192).bsd_symtab_pstart) :=
  ⟨by decide,
   elf_bsdsyms_size_agreement cex6e 8192 zeroMem true 8192 200 232 8192
     (by decide) (by decide) (by decide) (by decide) (by decide) (by decide)
     (by decide) (by decide) (by decide) (by decide) (by decide) (by decide)
     (by decide)⟩
